import Mathlib

/-!
Verification of the `har_backup` backup tool (Rust) against its natural-language
specification.  The relevant parts of the source are shallowly embedded below:

* `src/blob_storage.rs` — task ids, events, the hash-name function;
* `src/blob_storage_tasks.rs` / `src/blob_storage_local_directory.rs` — tasks,
  SyncComm/AsyncComm, the blocking operations, the local-directory backend;
* `src/manifest.rs` — the arena tree, `add`, path resolution, serialization,
  diffing;
* `src/mirror.rs` — `init` and the bounded-concurrency push/pull loops.

Machine integers (`usize`, `u64`) are modelled as `Nat`; none of the verified
code paths perform arithmetic that can overflow at these widths (sizes only
ever add values that were previously added, ids increment).  Byte sequences
(`bytes::Bytes`, `Vec<u8>`) are modelled as `List Nat`.  Fallible Rust code
returning `anyhow::Result` is modelled with `Except String` / `Option`.

The BLAKE3 hash function and the ChaCha20-Poly1305 cipher are external
libraries; they enter the embedding as opaque function parameters (`H`,
`enc`, `dec`).  What is verified about them is exactly what the repository's
code contributes: the byte stream fed to the hasher, the hex rendering, and
where the results are stored.
-/

/-- Bytes of a string, used where the Rust code calls `.as_bytes()`. -/
def strBytes (s : String) : List Nat :=
  s.toUTF8.toList.map (fun b => b.toNat)

/-- Lowercase hex digit for a value below 16 (mirrors `blake3::Hash::to_hex`,
which renders lowercase). -/
def toHexDigit (n : Nat) : Char :=
  if n < 10 then Char.ofNat (48 + n) else Char.ofNat (87 + n)

/-- Lowercase hex rendering of a byte list (two digits per byte). -/
def bytesToHex (bs : List Nat) : String :=
  String.mk ((bs.map (fun b => [toHexDigit (b / 16 % 16), toHexDigit (b % 16)])).flatten)

/-- The sixteen lowercase hex characters. -/
def hexChars : List Char :=
  "0123456789abcdef".data

namespace BlobStorageRs

/-- The `EventContent` enum exactly as declared in `src/blob_storage.rs`
(lines 51-57): `UploadSuccess(String)`, `DownloadSuccess(Bytes)`,
`Error(Error)`, `Progress(Progress)`.  Note that this declaration has no
`ExistsSuccess` variant, although the rest of the repository constructs and
matches on `EventContent::ExistsSuccess`. -/
inductive EventContent where
  | uploadSuccess (key : String)
  | downloadSuccess (bytes : List Nat)
  | error (msg : String)
  | progress
deriving DecidableEq, Repr

end BlobStorageRs

/-- The event content type as used by the rest of the repository
(`blob_storage_local_directory.rs` `ExistsTask::run` constructs
`EventContent::ExistsSuccess(bool)`, `blob_storage_tasks.rs`
`exists_blocking` matches on it, and the spec lists five variants).
The embedding of the backends below uses this five-variant type. -/
inductive EventContent where
  | uploadSuccess (key : String)
  | downloadSuccess (bytes : List Nat)
  | existsSuccess (b : Bool)
  | error (msg : String)
  | progress
deriving DecidableEq, Repr

/-- An event as in `src/blob_storage.rs`: a task id paired with content. -/
structure Event where
  id : Nat
  content : EventContent
deriving DecidableEq, Repr

/-!
## Content hashing (`get_hash_name` in `src/blob_storage.rs`)

`blake3::Hasher` is modelled by its interface contract: `update` appends to
the input stream, `finalize` applies the (opaque) hash function `H` to the
accumulated stream.  `to_hex` is `bytesToHex` above.
-/

/-- Model of `blake3::Hasher`: the byte stream accumulated so far. -/
abbrev Hasher : Type := List Nat

/-- Model of `blake3::Hasher::new()`. -/
def Hasher.new : Hasher := []

/-- Model of `blake3::Hasher::update`: append bytes to the stream. -/
def Hasher.update (h : Hasher) (data : List Nat) : Hasher := h ++ data

/-- Model of `blake3::Hasher::finalize`, with the hash function `H` passed
in as an opaque parameter (its output is the 32 hash bytes). -/
def Hasher.finalize (H : List Nat → List Nat) (h : Hasher) : List Nat := H h

/-- Translation of `get_hash_name` (`src/blob_storage.rs` lines 105-113):
hash `"har_backup"`, then the bucket name, then the payload, and render the
digest as hex. -/
def get_hash_name (H : List Nat → List Nat) (bucket_name : String)
    (data : List Nat) : String :=
  bytesToHex (Hasher.finalize H
    (Hasher.update (Hasher.update (Hasher.update Hasher.new
      (strBytes "har_backup")) (strBytes bucket_name)) data))

/-!
## Local-directory backend (`src/blob_storage_local_directory.rs`)

The blob directory's contents are an association list from blob key (the
file name inside the directory; the code always writes to
`local_dir_path.join(key)`) to the stored bytes.  Encryption
(`EncryptWithChacha::encrypt_blob`) is an opaque total function `enc`
(its only failure mode is a plaintext of 2^38 bytes or more, far beyond
any input the tool handles); decryption `dec` is opaque and fallible
(authentication failures are real).  OS-level read failures are modelled
by a missing key; OS-level write failures are not modelled.
-/

/-- Look a blob up in the directory contents (first match wins, so an
overwrite can be modelled by prepending). -/
def lookupBlob (files : List (String × List Nat)) (k : String) :
    Option (List Nat) :=
  (files.find? (fun pr => pr.1 == k)).map Prod.snd

/-- Translation of `UploadTask::run` for the local-directory backend:
resolve the key (content hash with the directory path as scope when no key
is supplied), encrypt, write `dir/key`, emit `UploadSuccess(key)`.
Returns the new directory contents and the emitted event contents. -/
def uploadTaskRun (H : List Nat → List Nat) (enc : List Nat → List Nat)
    (local_dir_path : String) (files : List (String × List Nat))
    (key : Option String) (data : List Nat) :
    List (String × List Nat) × List EventContent :=
  let k := match key with
    | some k => k
    | none => get_hash_name H local_dir_path data
  ((k, enc data) :: files, [EventContent.uploadSuccess k])

/-- Translation of `DownloadTask::run` for the local-directory backend:
read `dir/key` (missing file yields an `Error` event), decrypt (failure
yields an `Error` event), emit `DownloadSuccess(plaintext)`. -/
def downloadTaskRun (dec : List Nat → Except String (List Nat))
    (files : List (String × List Nat)) (key : String) : List EventContent :=
  match lookupBlob files key with
  | none => [EventContent.error "Error while opening/reading"]
  | some blob =>
    match dec blob with
    | Except.error e => [EventContent.error ("Error while decrypting (" ++ e ++ ")")]
    | Except.ok d => [EventContent.downloadSuccess d]

/-- Translation of `ExistsTask::run` for the local-directory backend:
emit `ExistsSuccess(path.exists())`. -/
def existsTaskRun (files : List (String × List Nat)) (key : String) :
    List EventContent :=
  [EventContent.existsSuccess (files.any (fun pr => pr.1 == key))]

/-- A local-directory blob-storage handle: the directory path, the
directory contents, the events delivered so far to each subscriber
previously obtained from `events()`, and the next task id. -/
structure LocalHandle where
  local_dir_path : String
  files : List (String × List Nat)
  queues : List (List Event)
  next_task_id : Nat
deriving Repr

/-- Scan of the buffered `SyncComm` events performed by `upload_blocking`
(`src/blob_storage_tasks.rs` lines 141-157 and the identical copy in
`src/blob_storage_local_directory.rs`): the first `UploadSuccess` yields
`Ok`, the first `Error` yields `Err`; any other leading content hits
`todo!()` and no event at all hits `panic!` — both modelled as `none`. -/
def extractUploadOutcome : List EventContent → Option (Except String String)
  | [] => none
  | EventContent.uploadSuccess k :: _ => some (Except.ok k)
  | EventContent.error e :: _ => some (Except.error e)
  | _ :: _ => none

/-- Scan performed by `download_blocking` over the buffered events. -/
def extractDownloadOutcome : List EventContent → Option (Except String (List Nat))
  | [] => none
  | EventContent.downloadSuccess bs :: _ => some (Except.ok bs)
  | EventContent.error e :: _ => some (Except.error e)
  | _ :: _ => none

/-- Scan performed by `exists_blocking` over the buffered events. -/
def extractExistsOutcome : List EventContent → Option (Except String Bool)
  | [] => none
  | EventContent.existsSuccess b :: _ => some (Except.ok b)
  | EventContent.error e :: _ => some (Except.error e)
  | _ :: _ => none

/-- Translation of `upload_blocking`: build the upload task, run it inline
with a `SyncComm` buffer, scan the buffer.  The subscriber queues and the
task-id counter are not touched. -/
def LocalHandle.upload_blocking (H : List Nat → List Nat)
    (enc : List Nat → List Nat) (h : LocalHandle) (data : List Nat)
    (key : Option String) : LocalHandle × Option (Except String String) :=
  let r := uploadTaskRun H enc h.local_dir_path h.files key data
  ({ h with files := r.1 }, extractUploadOutcome r.2)

/-- Translation of `download_blocking` (inline `SyncComm` run). -/
def LocalHandle.download_blocking (dec : List Nat → Except String (List Nat))
    (h : LocalHandle) (key : String) :
    LocalHandle × Option (Except String (List Nat)) :=
  (h, extractDownloadOutcome (downloadTaskRun dec h.files key))

/-- Translation of `exists_blocking` (inline `SyncComm` run). -/
def LocalHandle.exists_blocking (h : LocalHandle) (key : String) :
    LocalHandle × Option (Except String Bool) :=
  (h, extractExistsOutcome (existsTaskRun h.files key))

/-- Translation of the async `upload`: allocate the next task id, run the
task on a background thread with an `AsyncComm` holding the current sender
list; the model records the eventual effect — the task's events, stamped
with its id, are delivered to every subscriber queue. -/
def LocalHandle.upload (H : List Nat → List Nat) (enc : List Nat → List Nat)
    (h : LocalHandle) (data : List Nat) (key : Option String) :
    LocalHandle × Nat :=
  let tid := h.next_task_id
  let r := uploadTaskRun H enc h.local_dir_path h.files key data
  ({ local_dir_path := h.local_dir_path, files := r.1,
     queues := h.queues.map (fun q => q ++ r.2.map (fun c => Event.mk tid c)),
     next_task_id := tid + 1 }, tid)

/-- Translation of the async `download`. -/
def LocalHandle.download (dec : List Nat → Except String (List Nat))
    (h : LocalHandle) (key : String) : LocalHandle × Nat :=
  let tid := h.next_task_id
  let evs := downloadTaskRun dec h.files key
  ({ h with
     queues := h.queues.map (fun q => q ++ evs.map (fun c => Event.mk tid c)),
     next_task_id := tid + 1 }, tid)

/-- Translation of the async `exists`. -/
def LocalHandle.exists (h : LocalHandle) (key : String) : LocalHandle × Nat :=
  let tid := h.next_task_id
  let evs := existsTaskRun h.files key
  ({ h with
     queues := h.queues.map (fun q => q ++ evs.map (fun c => Event.mk tid c)),
     next_task_id := tid + 1 }, tid)

/-- Terminal outcome of an upload task's event stream, as an async
subscriber would extract it (the spec's notion for the comparison in the
blocking-variant contract): the first terminal content decides. -/
def asyncTerminalUpload (evs : List EventContent) :
    Option (Except String String) :=
  match evs.find? (fun c => match c with
    | EventContent.uploadSuccess _ => true
    | EventContent.error _ => true
    | _ => false) with
  | some (EventContent.uploadSuccess k) => some (Except.ok k)
  | some (EventContent.error e) => some (Except.error e)
  | _ => none

/-- Terminal outcome of a download task's event stream (async view). -/
def asyncTerminalDownload (evs : List EventContent) :
    Option (Except String (List Nat)) :=
  match evs.find? (fun c => match c with
    | EventContent.downloadSuccess _ => true
    | EventContent.error _ => true
    | _ => false) with
  | some (EventContent.downloadSuccess bs) => some (Except.ok bs)
  | some (EventContent.error e) => some (Except.error e)
  | _ => none

/-- Terminal outcome of an exists task's event stream (async view). -/
def asyncTerminalExists (evs : List EventContent) :
    Option (Except String Bool) :=
  match evs.find? (fun c => match c with
    | EventContent.existsSuccess _ => true
    | EventContent.error _ => true
    | _ => false) with
  | some (EventContent.existsSuccess b) => some (Except.ok b)
  | some (EventContent.error e) => some (Except.error e)
  | _ => none

/-!
## Manifest data model (`src/manifest.rs`)

`EntryId` is the arena index, modelled as a plain `Nat`.  `HashMap<String,
EntryId>` directory child maps are association lists (lookup takes the
first match; `Manifest::add` only ever inserts fresh names, so real maps
never hold duplicates).  `BlobKey` holds the raw 32 hash bytes.  Rust
panics from out-of-range arena indexing are modelled as `Except.error`.
-/

/-- An arena entry: a directory (name and child map) or a file (name,
blob key bytes, size). -/
inductive Entry where
  | directory (name : String) (entries : List (String × Nat))
  | file (name : String) (blob_key : List Nat) (size : Nat)
deriving DecidableEq, Repr

/-- Translation of `Entry::name`. -/
def Entry.name : Entry → String
  | Entry.directory n _ => n
  | Entry.file n _ _ => n

/-- The manifest: root entry id plus the entry arena. -/
structure Manifest where
  root : Nat
  entries : List Entry
deriving DecidableEq, Repr

/-- Translation of `Manifest::new()`: a single root directory named
`"ROOT"` at index 0. -/
def Manifest.new : Manifest :=
  { root := 0, entries := [Entry.directory "ROOT" []] }

/-- Child map of the entry at index `p` (empty for files and for
out-of-range indices). -/
def childrenAt (m : Manifest) (p : Nat) : List (String × Nat) :=
  match m.entries[p]? with
  | some (Entry.directory _ ch) => ch
  | _ => []

/-- Whether the entry at index `p` is a directory. -/
def isDirAt (m : Manifest) (p : Nat) : Bool :=
  match m.entries[p]? with
  | some (Entry.directory _ _) => true
  | _ => false

/-- Name of the directory at index `p` (empty string otherwise). -/
def dirNameAt (m : Manifest) (p : Nat) : String :=
  match m.entries[p]? with
  | some (Entry.directory n _) => n
  | _ => ""

/-- Translation of `Manifest::add` (`src/manifest.rs` lines 159-173):
fail if the parent is not a directory, fail with the duplicate-name error
if the parent already has a child by the entry's name, otherwise append
the entry to the arena, link it into the parent's child map under its
name, and return the new id (the arena index of the appended entry). -/
def Manifest.add (m : Manifest) (entry : Entry) (parent_dir : Nat) :
    Except String (Manifest × Nat) :=
  match m.entries[parent_dir]? with
  | none => Except.error "index out of bounds"
  | some (Entry.file ..) =>
      Except.error "Tried to force enum type but it's the wrong one"
  | some (Entry.directory dname ch) =>
    if ch.any (fun pr => pr.1 == entry.name) then
      Except.error "Entry with same name exists"
    else
      let entry_id := m.entries.length
      Except.ok
        ({ root := m.root,
           entries := (m.entries ++ [entry]).set parent_dir
             (Entry.directory dname (ch ++ [(entry.name, entry_id)])) },
         entry_id)

/-!
## Manifest serialization (`to_bytes` / `from_bytes`, `src/manifest.rs`)

`rmp_serde` encodes the serde data model to MessagePack bytes.  The part
contributed by the repository is the derived serde mapping of its types:
structs become field sequences, the `Entry` enum is externally tagged by
variant, directory child maps become MessagePack maps, blob keys become the
raw 32 hash bytes (length enforced on decode).  This is modelled at the
MessagePack *value* level — `MsgValue` below — taking the value↔byte framing
of the `rmp` library as a faithful codec; `Manifest.to_bytes` and
`Manifest.from_bytes` are the composition of the derived mapping with that
framing.
-/

/-- A MessagePack value tree (the serde data model `rmp_serde` renders). -/
inductive MsgValue where
  | uint (n : Nat)
  | str (s : String)
  | bin (bs : List Nat)
  | arr (vs : List MsgValue)
  | map (kvs : List (MsgValue × MsgValue))
deriving Repr

/-- Serialization of `EntryId` (a one-field struct, hence a one-element
field sequence). -/
def encodeEntryId (id : Nat) : MsgValue :=
  MsgValue.arr [MsgValue.uint id]

/-- Serialization of one directory-map binding. -/
def encodeChild (pr : String × Nat) : MsgValue × MsgValue :=
  (MsgValue.str pr.1, encodeEntryId pr.2)

/-- Serialization of an `Entry`: externally tagged variant holding the
struct's field sequence. -/
def encodeEntry : Entry → MsgValue
  | Entry.directory name ch =>
    MsgValue.map [(MsgValue.str "Directory",
      MsgValue.arr [MsgValue.str name, MsgValue.map (ch.map encodeChild)])]
  | Entry.file name key size =>
    MsgValue.map [(MsgValue.str "File",
      MsgValue.arr [MsgValue.str name, MsgValue.arr [MsgValue.bin key],
        MsgValue.uint size])]

/-- Translation of `Manifest::to_bytes` at the MessagePack value level. -/
def Manifest.to_bytes (m : Manifest) : MsgValue :=
  MsgValue.arr [encodeEntryId m.root, MsgValue.arr (m.entries.map encodeEntry)]

/-- Deserialization of an `EntryId`. -/
def decodeEntryId : MsgValue → Option Nat
  | MsgValue.arr [MsgValue.uint n] => some n
  | _ => none

/-- Deserialization of one directory-map binding. -/
def decodeChild : MsgValue × MsgValue → Option (String × Nat)
  | (MsgValue.str n, v) => (decodeEntryId v).map (fun id => (n, id))
  | _ => none

/-- Deserialization of a directory child map (the deserializer folds over
its entries; any malformed binding fails the whole decode). -/
def decodeChildren : List (MsgValue × MsgValue) → Option (List (String × Nat))
  | [] => some []
  | kv :: rest =>
    match decodeChild kv, decodeChildren rest with
    | some pr, some tl => some (pr :: tl)
    | _, _ => none

/-- Deserialization of a `Directory` variant payload. -/
def decodeDirPayload : MsgValue → Option Entry
  | MsgValue.arr [MsgValue.str name, MsgValue.map kvs] =>
      (decodeChildren kvs).map (fun ch => Entry.directory name ch)
  | _ => none

/-- Deserialization of a `File` variant payload; the blob key must be
exactly 32 bytes (`blake3::Hash::from_bytes` takes `[u8; 32]`). -/
def decodeFilePayload : MsgValue → Option Entry
  | MsgValue.arr [MsgValue.str name, MsgValue.arr [MsgValue.bin key],
      MsgValue.uint size] =>
      if key.length = 32 then some (Entry.file name key size) else none
  | _ => none

/-- Deserialization of an `Entry`: dispatch on the variant tag. -/
def decodeEntry : MsgValue → Option Entry
  | MsgValue.map [(MsgValue.str tag, payload)] =>
      if tag = "Directory" then decodeDirPayload payload
      else if tag = "File" then decodeFilePayload payload
      else none
  | _ => none

/-- Deserialization of the entry arena. -/
def decodeEntries : List MsgValue → Option (List Entry)
  | [] => some []
  | v :: rest =>
    match decodeEntry v, decodeEntries rest with
    | some e, some tl => some (e :: tl)
    | _, _ => none

/-- Translation of `Manifest::from_bytes` at the MessagePack value level. -/
def Manifest.from_bytes : MsgValue → Option Manifest
  | MsgValue.arr [rootV, MsgValue.arr entryVs] =>
      match decodeEntryId rootV with
      | none => none
      | some root =>
        match decodeEntries entryVs with
        | none => none
        | some entries => some { root := root, entries := entries }
  | _ => none

/-- File entries carry a 32-byte blob key (true of every real manifest,
whose keys are `blake3::Hash` values). -/
def entryKeyLen32 : Entry → Bool
  | Entry.file _ k _ => k.length == 32
  | _ => true

/-- All blob keys in the manifest are 32 bytes long. -/
def keysLen32 (m : Manifest) : Bool :=
  m.entries.all entryKeyLen32

/-!
## Mirror manifest-blob protocol (`Mirror::init`, `src/mirror.rs` 22-33)

`render` is the opaque value→bytes framing of `rmp_serde`
(`Manifest::to_bytes` composed with it yields the uploaded bytes).
-/

/-- Translation of `Mirror::init`: probe `exists_blocking("manifest")`;
if the manifest blob exists, bail out with the already-initialized error
without uploading anything; otherwise serialize a fresh empty manifest and
upload it under the exact key `"manifest"`. -/
def Mirror.init (H : List Nat → List Nat) (enc : List Nat → List Nat)
    (render : MsgValue → List Nat) (h : LocalHandle) :
    LocalHandle × Except String Unit :=
  match h.exists_blocking "manifest" with
  | (h1, some (Except.error e)) => (h1, Except.error e)
  | (h1, some (Except.ok true)) =>
      (h1, Except.error "Manifest already exists in remote")
  | (h1, some (Except.ok false)) =>
      let r := h1.upload_blocking H enc (render (Manifest.to_bytes Manifest.new))
        (some "manifest")
      match r.2 with
      | some (Except.ok _) => (r.1, Except.ok ())
      | some (Except.error e) => (r.1, Except.error e)
      | none => (r.1, Except.error "panic: did not find event")
  | (h1, none) => (h1, Except.error "panic: did not find event")

/-!
## Paths (`std::path` on Unix) and manifest path resolution

`Path::components()` normalizes: separators split, empty components and
`"."` (except leading) disappear, `".."` is `ParentDir`, a leading `"/"`
is `RootDir`.  `PathBuf::from_iter` over plain names joins with `"/"`.
Path strings are manipulated through their character lists.
-/

/-- A Rust `std::path::Component` (Unix flavour). -/
inductive Component where
  | rootDir
  | curDir
  | parentDir
  | normal (s : String)
deriving DecidableEq, Repr

/-- Split a character list on `'/'` (mirrors the separator splitting of
`Path::components()`); always returns at least one piece. -/
def splitOnSlash : List Char → List (List Char)
  | [] => [[]]
  | c :: rest =>
    if c = '/' then [] :: splitOnSlash rest
    else
      match splitOnSlash rest with
      | [] => [[c]]
      | p :: ps => (c :: p) :: ps

/-- Interpret one non-empty, non-`"."` piece as a component. -/
def toComponent (p : List Char) : Component :=
  if p = ['.', '.'] then Component.parentDir else Component.normal (String.mk p)

/-- Interpretation of the slash-split pieces: a leading empty piece marks
an absolute path (`RootDir`), a leading `"."` survives as `CurDir`, empty
and `"."` pieces elsewhere are dropped, `".."` is `ParentDir`. -/
def componentsOfPieces : List (List Char) → List Component
  | [] => []
  | first :: rest =>
    let tail := (rest.filter (fun p => !(p == []) && !(p == ['.']))).map toComponent
    if first = [] then
      if rest.isEmpty then [] else Component.rootDir :: tail
    else if first = ['.'] then Component.curDir :: tail
    else toComponent first :: tail

/-- Translation of `Path::components()` for Unix paths. -/
def pathComponents (s : String) : List Component :=
  componentsOfPieces (splitOnSlash s.data)

/-- Join pieces with `'/'`. -/
def intercalateSlash : List (List Char) → List Char
  | [] => []
  | [n] => n
  | n :: rest => n ++ '/' :: intercalateSlash rest

/-- Translation of `PathBuf::from_iter` over entry names (each name is
pushed in turn; for names that are single normal components this joins
them with `"/"`). -/
def joinNames (names : List String) : String :=
  String.mk (intercalateSlash (names.map String.data))

/-- A name that is one normal path component: non-empty, not `"."`, not
`".."`, and free of the separator. -/
def isNormalName (s : String) : Bool :=
  decide (s.data ≠ [] ∧ s.data ≠ ['.'] ∧ s.data ≠ ['.', '.'] ∧ '/' ∉ s.data)

/-- All entry names in the manifest are normal path components. -/
def namesNormal (m : Manifest) : Bool :=
  m.entries.all (fun e => isNormalName e.name)

/-- Name of the entry at index `i` (empty for out-of-range). -/
def entryNameAt (m : Manifest) (i : Nat) : String :=
  match m.entries[i]? with
  | some e => e.name
  | none => ""

/-- First directory index having `c` as a child.  `get_map_parent`
(`src/manifest.rs` lines 242-263) reconstructs the parent map by walking
from the root; in a well-formed manifest each entry has at most one parent
directory, so the reconstructed map's lookup is this search. -/
def parentOf (m : Manifest) (c : Nat) : Option Nat :=
  (List.range m.entries.length).find?
    (fun p => (childrenAt m p).any (fun pr => pr.2 == c))

/-- Upward walk of `get_full_path` (`src/manifest.rs` lines 265-277):
collect the entry's name and its ancestors' names below the root, with
fuel to keep the walk total on arbitrary arenas. -/
def climb (m : Manifest) : Nat → Nat → Option (List String)
  | 0, _ => none
  | fuel + 1, id =>
    match m.entries[id]? with
    | none => none
    | some e =>
      match parentOf m id with
      | none => none
      | some p =>
        if p = m.root then some [e.name]
        else
          match climb m fuel p with
          | none => none
          | some rest => some (e.name :: rest)

/-- Translation of `Manifest::get_full_path`: the root has the empty
path; otherwise the reversed chain of names from the entry up to (not
including) the root, joined into a path. -/
def get_full_path (m : Manifest) (e : Nat) : Option String :=
  if e = m.root then some "" else
    match climb m m.entries.length e with
    | none => none
    | some names => some (joinNames names.reverse)

/-- State of `join_and_get_entry_id`'s walk: the current directory's child
map and the last entry id seen. -/
structure JoinState where
  cd : List (String × Nat)
  last : Option Nat
deriving DecidableEq, Repr

/-- One component step of `join_and_get_entry_id`
(`src/manifest.rs` lines 134-157): root components fail, normal components
resolve in the current directory's child map (the current directory only
advances when the resolved entry is a directory), other components fail. -/
def joinStep (m : Manifest) (st : JoinState) (c : Component) :
    Except String JoinState :=
  match c with
  | Component.rootDir =>
      Except.error "Should not have root component in path_add"
  | Component.normal s =>
    match st.cd.find? (fun pr => pr.1 == s) with
    | none => Except.error "Entry not found in cd"
    | some pr =>
      match m.entries[pr.2]? with
      | none => Except.error "index out of bounds"
      | some (Entry.directory _ ch) =>
          Except.ok { cd := ch, last := some pr.2 }
      | some (Entry.file ..) => Except.ok { cd := st.cd, last := some pr.2 }
  | _ => Except.error "Cannot handle path components other than root/normal"

/-- Translation of `Manifest::join_and_get_entry_id`: walk the path's
components from `base` (which must be a directory); an empty component
list returns `base`, otherwise the last resolved entry id. -/
def Manifest.join_and_get_entry_id (m : Manifest) (base : Nat)
    (path : String) : Except String Nat :=
  match m.entries[base]? with
  | none => Except.error "index out of bounds"
  | some (Entry.file ..) =>
      Except.error "Tried to force enum type but it's the wrong one"
  | some (Entry.directory _ ch) =>
    let comps := pathComponents path
    match comps.foldlM (joinStep m) { cd := ch, last := none } with
    | Except.error e => Except.error e
    | Except.ok st =>
      if comps.isEmpty then Except.ok base
      else
        match st.last with
        | some id => Except.ok id
        | none => Except.error "last_entry is none?"

/-- Well-formedness of a manifest, as guaranteed for every manifest built
through `Manifest::new` and `Manifest::add` (`from_fs` and the merge path
build exclusively through `add`): the root is directory 0; every child id
is a valid arena index strictly greater than its parent's (`add` always
links a freshly appended entry, so the arena is topologically sorted and
in particular acyclic); each directory maps a name to an entry bearing
exactly that name; sibling names are unique; and every entry has at most
one parent directory. -/
def Wf (m : Manifest) : Prop :=
  m.root = 0 ∧ 0 < m.entries.length ∧ isDirAt m 0 = true ∧
  (∀ p < m.entries.length, ∀ pr ∈ childrenAt m p,
      pr.2 < m.entries.length ∧ p < pr.2 ∧ entryNameAt m pr.2 = pr.1) ∧
  (∀ p < m.entries.length, ((childrenAt m p).map Prod.fst).Nodup) ∧
  (∀ c < m.entries.length, ∀ p1 < m.entries.length, ∀ p2 < m.entries.length,
      (childrenAt m p1).any (fun pr => pr.2 == c) = true →
      (childrenAt m p2).any (fun pr => pr.2 == c) = true → p1 = p2)

/-- Reachability in the manifest tree: `ReachAt m e names` holds when
entry `e` is reached from the root along child-map edges labelled
`names`. -/
inductive ReachAt (m : Manifest) : Nat → List String → Prop where
  | root : ReachAt m m.root []
  | child {p : Nat} {names : List String} {n : String} {c : Nat} :
      ReachAt m p names → (n, c) ∈ childrenAt m p → ReachAt m c (names ++ [n])

/-- Equality of `Except` results is decidable (used to evaluate the
models on concrete inputs). -/
instance {ε α : Type} [DecidableEq ε] [DecidableEq α] :
    DecidableEq (Except ε α) := fun x y =>
  match x, y with
  | Except.ok a, Except.ok b =>
    if h : a = b then Decidable.isTrue (by rw [h])
    else Decidable.isFalse (by simp [h])
  | Except.error a, Except.error b =>
    if h : a = b then Decidable.isTrue (by rw [h])
    else Decidable.isFalse (by simp [h])
  | Except.ok _, Except.error _ => Decidable.isFalse (by simp)
  | Except.error _, Except.ok _ => Decidable.isFalse (by simp)

/-- A manifest with a file literally named `"."` under the root (such a
manifest is obtainable through `Manifest::from_bytes`). -/
def dotNameManifest : Manifest :=
  { root := 0,
    entries := [Entry.directory "ROOT" [(".", 1)], Entry.file "." [7] 1] }

/-- A small well-formed manifest `ROOT/d/f` used as a concrete instance. -/
def demoManifest : Manifest :=
  { root := 0,
    entries := [Entry.directory "ROOT" [("d", 1)],
      Entry.directory "d" [("f", 2)], Entry.file "f" [7] 3] }

/-!
## Manifest diffing (`DiffManifests::diff_manifests`, `src/manifest.rs`)

The model covers the hash-check-off configuration used by the free
function `diff_manifests` (`DiffManifests::default()`; the hash-check
branch reads the filesystem and only ever appends to
`paths_of_different_files`, which the modelled claims do not mention).
The source memoizes `get_num_child_in_dir_recurs` in a map; memoization
only avoids recomputation, so the model recurses directly, fuel-bounded.
Rust panics (out-of-range ids, a directory name resolving to a file in
`b`) are modelled as skips; they are unreachable in the verified uses.
-/

/-- Result accumulator of a diff (the fields the claims mention). -/
structure DiffManifests where
  top_extra_ids_in_a : List Nat
  paths_of_top_extra_in_a : List (Option String)
  extra_files_in_a : Nat
  extra_dirs_in_a : Nat
deriving DecidableEq, Repr

/-- Translation of `get_num_child_in_dir_recurs`: recursive
`(files, dirs)` tally of a directory's descendants. -/
def numChildRecurs (m : Manifest) : Nat → Nat → Nat × Nat
  | 0, _ => (0, 0)
  | fuel + 1, id =>
    match m.entries[id]? with
    | some (Entry.file ..) => (1, 0)
    | some (Entry.directory _ ch) =>
      ch.foldl (fun acc pr =>
        match m.entries[pr.2]? with
        | some (Entry.file ..) => (acc.1 + 1, acc.2)
        | some (Entry.directory ..) =>
          (acc.1 + (numChildRecurs m fuel pr.2).1,
           acc.2 + (numChildRecurs m fuel pr.2).2 + 1)
        | none => acc) (0, 0)
    | none => (0, 0)

/-- Processing of one child of the currently visited directory pair
(`src/manifest.rs` lines 401-449): skip the `.har` exclusion; a file
missing from `b` by name is a top extra; a directory present in `b`
descends (its pair is pushed), a directory missing from `b` is a top
extra with its recursive counts added. -/
def diffStep (ma mb : Manifest) (chB : List (String × Nat))
    (st : DiffManifests × List (List (String × Nat) × List (String × Nat)))
    (pr : String × Nat) :
    DiffManifests × List (List (String × Nat) × List (String × Nat)) :=
  let acc := st.1
  let stack := st.2
  let c := pr.2
  if get_full_path ma c = some ".har" then (acc, stack)
  else
    match ma.entries[c]? with
    | some (Entry.file fname _ _) =>
      if chB.any (fun q => q.1 == fname) then (acc, stack)
      else
        ({ acc with
           extra_files_in_a := acc.extra_files_in_a + 1,
           top_extra_ids_in_a := acc.top_extra_ids_in_a ++ [c] }, stack)
    | some (Entry.directory dname chA2) =>
      match chB.find? (fun q => q.1 == dname) with
      | some q =>
        match mb.entries[q.2]? with
        | some (Entry.directory _ chB2) => (acc, (chA2, chB2) :: stack)
        | _ => (acc, stack)
      | none =>
        ({ acc with
           extra_dirs_in_a :=
             acc.extra_dirs_in_a + 1 + (numChildRecurs ma ma.entries.length c).2,
           extra_files_in_a :=
             acc.extra_files_in_a + (numChildRecurs ma ma.entries.length c).1,
           top_extra_ids_in_a := acc.top_extra_ids_in_a ++ [c] }, stack)
    | none => (acc, stack)

/-- The diff work loop over the pair stack, fuel-bounded. -/
def diffLoop (ma mb : Manifest) :
    Nat → List (List (String × Nat) × List (String × Nat)) → DiffManifests →
    Option DiffManifests
  | _, [], acc => some acc
  | 0, _ :: _, _ => none
  | fuel + 1, (chA, chB) :: rest, acc =>
    let r := chA.foldl (diffStep ma mb chB) (acc, rest)
    diffLoop ma mb fuel r.2 r.1

/-- Subtree directory count (the directory itself plus all directory
descendants), fuel-bounded; sizes the diff loop's fuel. -/
def dirCntF (m : Manifest) : Nat → Nat → Nat
  | 0, _ => 1
  | fuel + 1, d =>
    match m.entries[d]? with
    | some (Entry.directory _ ch) =>
      1 + ((ch.filter (fun pr => isDirAt m pr.2)).map
        (fun pr => dirCntF m fuel pr.2)).sum
    | _ => 1

/-- Translation of the free `diff_manifests` (hash check off): walk the
two trees in parallel from the roots, then resolve the full paths of the
top extras. -/
def diff_manifests (ma mb : Manifest) : Option DiffManifests :=
  match ma.entries[ma.root]?, mb.entries[mb.root]? with
  | some (Entry.directory _ chA), some (Entry.directory _ chB) =>
    match diffLoop ma mb (dirCntF ma ma.entries.length ma.root) [(chA, chB)]
        { top_extra_ids_in_a := [], paths_of_top_extra_in_a := [],
          extra_files_in_a := 0, extra_dirs_in_a := 0 } with
    | none => none
    | some acc =>
      some { acc with
        paths_of_top_extra_in_a :=
          acc.top_extra_ids_in_a.map (get_full_path ma) }
  | _, _ => none

/-- Fuel charge of one child map on the pair stack. -/
def chMeasure (m : Manifest) (ch : List (String × Nat)) : Nat :=
  1 + ((ch.filter (fun pr => isDirAt m pr.2)).map
    (fun pr => dirCntF m m.entries.length pr.2)).sum

/-- Total fuel charge of the pair stack. -/
def stackMeasure (m : Manifest)
    (stack : List (List (String × Nat) × List (String × Nat))) : Nat :=
  (stack.map (fun pr => chMeasure m pr.1)).sum

/-- A self-diff stack entry: the two sides are the same child map and it
is the child map of some directory of the manifest. -/
def GoodPair (m : Manifest)
    (pr : List (String × Nat) × List (String × Nat)) : Prop :=
  pr.2 = pr.1 ∧ ∃ d, d < m.entries.length ∧ isDirAt m d = true
    ∧ childrenAt m d = pr.1

/-- A manifest whose root maps the key `"x"` to a file entry named `"y"`
(obtainable through `Manifest::from_bytes`, which imposes no consistency
between a directory's map keys and its children's recorded names). -/
def badNameManifest : Manifest :=
  { root := 0,
    entries := [Entry.directory "ROOT" [("x", 1)], Entry.file "y" [7] 1] }

/-!
## Bounded-concurrency transfer loops (`Mirror::push` / `Mirror::pull`,
`src/mirror.rs` lines 49-169)

The loop state is modelled exactly by the local variables of the Rust
loops; the step relation has one constructor per state change: task
admission (the body of the inner `while`, guarded by its conditions) and
task completion (the success arm of the event dispatch; the `Error` arm
returns from the function and the other arms panic, so neither yields a
next loop state).  Every state the running loop exhibits at an
observation point is reachable in this relation.  For `push`, inputs are
the byte lengths of the files read (`data.len()`); the upload key carried
by a completion event is arbitrary.  For `pull`, inputs are the sizes
recorded in the `files` argument.  The status print changes no state and
is omitted, as is the file write performed by `pull` on completion. -/

/-- The recognized transfer options (`time_between_prints` only throttles
printing and changes no loop state). -/
structure TransferConfig where
  active_tasks_limit : Nat
  active_size_limit : Nat
deriving Repr

/-- State of the `push` loop: `active` is the `task id ↦ result index`
map (insertion order, newest first), the rest are the loop's locals. -/
structure PushState where
  nextIndex : Nat
  active : List (Nat × Nat)
  activeSize : Nat
  results : List (Option (Except String String))
  sizes : List (Option Nat)
  nextTaskId : Nat
deriving DecidableEq, Repr

/-- Initial `push` state for `n` input paths. -/
def PushState.init (n : Nat) : PushState :=
  { nextIndex := 0, active := [], activeSize := 0,
    results := List.replicate n none, sizes := List.replicate n none,
    nextTaskId := 0 }

/-- One state change of the `push` loop. -/
inductive PushStep (cfg : TransferConfig) (inputs : List Nat) :
    PushState → PushState → Prop where
  | start (s : PushState)
      (h1 : s.nextIndex < inputs.length)
      (h2 : s.activeSize < cfg.active_size_limit ∨ s.active = [])
      (h3 : s.active.length < cfg.active_tasks_limit) :
      PushStep cfg inputs s
        { nextIndex := s.nextIndex + 1,
          active := (s.nextTaskId, s.nextIndex) :: s.active,
          activeSize := s.activeSize + inputs.getD s.nextIndex 0,
          results := s.results,
          sizes := s.sizes.set s.nextIndex (some (inputs.getD s.nextIndex 0)),
          nextTaskId := s.nextTaskId + 1 }
  | complete (s : PushState) (tid idx : Nat) (key : String)
      (pre post : List (Nat × Nat))
      (hsplit : s.active = pre ++ (tid, idx) :: post) :
      PushStep cfg inputs s
        { nextIndex := s.nextIndex,
          active := pre ++ post,
          activeSize := s.activeSize - (s.sizes.getD idx none).getD 0,
          results := s.results.set idx (some (Except.ok key)),
          sizes := s.sizes,
          nextTaskId := s.nextTaskId }

/-- States the `push` loop reaches. -/
inductive PushReach (cfg : TransferConfig) (inputs : List Nat) :
    PushState → Prop where
  | init : PushReach cfg inputs (PushState.init inputs.length)
  | step {s t : PushState} : PushReach cfg inputs s →
      PushStep cfg inputs s t → PushReach cfg inputs t

/-- State of the `pull` loop (no result array; sizes come from the
`files` argument). -/
structure PullState where
  nextIndex : Nat
  active : List (Nat × Nat)
  activeSize : Nat
  nextTaskId : Nat
deriving DecidableEq, Repr

/-- Initial `pull` state. -/
def PullState.init : PullState :=
  { nextIndex := 0, active := [], activeSize := 0, nextTaskId := 0 }

/-- One state change of the `pull` loop. -/
inductive PullStep (cfg : TransferConfig) (sizes : List Nat) :
    PullState → PullState → Prop where
  | start (s : PullState)
      (h1 : s.nextIndex < sizes.length)
      (h2 : s.activeSize < cfg.active_size_limit ∨ s.active = [])
      (h3 : s.active.length < cfg.active_tasks_limit) :
      PullStep cfg sizes s
        { nextIndex := s.nextIndex + 1,
          active := (s.nextTaskId, s.nextIndex) :: s.active,
          activeSize := s.activeSize + sizes.getD s.nextIndex 0,
          nextTaskId := s.nextTaskId + 1 }
  | complete (s : PullState) (tid idx : Nat)
      (pre post : List (Nat × Nat))
      (hsplit : s.active = pre ++ (tid, idx) :: post) :
      PullStep cfg sizes s
        { nextIndex := s.nextIndex,
          active := pre ++ post,
          activeSize := s.activeSize - sizes.getD idx 0,
          nextTaskId := s.nextTaskId }

/-- States the `pull` loop reaches. -/
inductive PullReach (cfg : TransferConfig) (sizes : List Nat) :
    PullState → Prop where
  | init : PullReach cfg sizes PullState.init
  | step {s t : PullState} : PullReach cfg sizes s →
      PullStep cfg sizes s t → PullReach cfg sizes t

/-- Sum of the input sizes of the in-flight tasks. -/
def activeSum (inputs : List Nat) (active : List (Nat × Nat)) : Nat :=
  (active.map (fun pr => inputs.getD pr.2 0)).sum

/-- Largest input size. -/
def maxInput (inputs : List Nat) : Nat :=
  inputs.foldr max 0

/-- Inductive invariant of the `push` loop. -/
def PushInv (cfg : TransferConfig) (inputs : List Nat) (s : PushState) :
    Prop :=
  s.results.length = inputs.length ∧
  s.sizes.length = inputs.length ∧
  s.nextIndex ≤ inputs.length ∧
  s.activeSize = activeSum inputs s.active ∧
  (∀ pr ∈ s.active, pr.2 < s.nextIndex ∧
    s.sizes.getD pr.2 none = some (inputs.getD pr.2 0)) ∧
  s.active.length ≤ cfg.active_tasks_limit ∧
  s.activeSize ≤ cfg.active_size_limit + maxInput inputs ∧
  (∀ i < inputs.length, s.results.getD i none = none →
    s.nextIndex ≤ i ∨ ∃ t, (t, i) ∈ s.active) ∧
  (∀ i r, s.results.getD i none = some r → ∃ k, r = Except.ok k)

/-- Inductive invariant of the `pull` loop. -/
def PullInv (cfg : TransferConfig) (sizes : List Nat) (s : PullState) :
    Prop :=
  s.activeSize = activeSum sizes s.active ∧
  s.active.length ≤ cfg.active_tasks_limit ∧
  s.activeSize ≤ cfg.active_size_limit + maxInput sizes

/-- The configuration of the C2 counterexample run. -/
def cexConfig : TransferConfig :=
  { active_tasks_limit := 32, active_size_limit := 10 }

/-- The push state after admitting files of sizes 1 and 100 under
`cexConfig`: the second admission is allowed (1 < 10) and drives
`active_size` to 101 with two tasks in flight. -/
def overLimitState : PushState :=
  { nextIndex := 2, active := [(1, 1), (0, 0)], activeSize := 101,
    results := [none, none], sizes := [some 1, some 100], nextTaskId := 2 }

/-- The completed one-file push run used as the C10 witness. -/
def pushDoneState : PushState :=
  { nextIndex := 1, active := [], activeSize := 0,
    results := [some (Except.ok "k")], sizes := [some 5], nextTaskId := 1 }

/-- C1: the claim says the blob-storage event content type has exactly five
variants including `ExistsSuccess(bool)`.  The enum actually declared in
`src/blob_storage.rs` has only four variants: every value of it is an
`UploadSuccess`, a `DownloadSuccess`, an `Error` or a `Progress` — there is no
`ExistsSuccess` variant, even though `ExistsTask::run` in
`src/blob_storage_local_directory.rs` constructs one.  The code contradicts
its own callers (the crate cannot compile as given), so this records the code
bug. -/
theorem eventContent_decl_has_only_four_variants
    (c : BlobStorageRs.EventContent) :
    (∃ k, c = BlobStorageRs.EventContent.uploadSuccess k) ∨
    (∃ bs, c = BlobStorageRs.EventContent.downloadSuccess bs) ∨
    (∃ m, c = BlobStorageRs.EventContent.error m) ∨
    c = BlobStorageRs.EventContent.progress := by
  cases c with
  | uploadSuccess k => exact Or.inl ⟨k, rfl⟩
  | downloadSuccess bs => exact Or.inr (Or.inl ⟨bs, rfl⟩)
  | error m => exact Or.inr (Or.inr (Or.inl ⟨m, rfl⟩))
  | progress => exact Or.inr (Or.inr (Or.inr rfl))

/-- Each hex digit of a byte below 16 is a lowercase hex character. -/
theorem toHexDigit_mem_hexChars (n : Nat) (h : n < 16) :
    toHexDigit n ∈ hexChars := by
  interval_cases n <;> decide

/-- Every character of `bytesToHex` output is a lowercase hex character. -/
theorem mem_bytesToHex_mem_hexChars (bs : List Nat) (c : Char)
    (hc : c ∈ (bytesToHex bs).data) : c ∈ hexChars := by
  have hc' : c ∈ (bs.map (fun b =>
      [toHexDigit (b / 16 % 16), toHexDigit (b % 16)])).flatten := hc
  rcases List.mem_flatten.mp hc' with ⟨l, hl, hcl⟩
  rcases List.mem_map.mp hl with ⟨b, _, rfl⟩
  simp only [List.mem_cons, List.not_mem_nil, or_false] at hcl
  rcases hcl with rfl | rfl
  · exact toHexDigit_mem_hexChars _ (Nat.mod_lt _ (by norm_num))
  · exact toHexDigit_mem_hexChars _ (Nat.mod_lt _ (by norm_num))

/-- C9: `get_hash_name(scope, p)` equals the lowercase hex rendering of the
BLAKE3 digest of the concatenation `"har_backup" ++ scope ++ p` (every
output character is a lowercase hex character), and the local-directory
upload task with no explicit key stores the blob under exactly the key
computed with the backend's directory path as scope, reporting that key in
its `UploadSuccess` event. -/
theorem content_key_spec (H : List Nat → List Nat) (enc : List Nat → List Nat)
    (scope dirPath : String) (p data : List Nat)
    (files : List (String × List Nat)) :
    get_hash_name H scope p
      = bytesToHex (H (strBytes "har_backup" ++ strBytes scope ++ p)) ∧
    (∀ c ∈ (get_hash_name H scope p).data, c ∈ hexChars) ∧
    uploadTaskRun H enc dirPath files none data
      = ((get_hash_name H dirPath data, enc data) :: files,
         [EventContent.uploadSuccess (get_hash_name H dirPath data)]) := by
  refine ⟨?_, ?_, rfl⟩
  · simp [get_hash_name, Hasher.new, Hasher.update, Hasher.finalize,
      List.append_assoc]
  · intro c hc
    exact mem_bytesToHex_mem_hexChars _ _ hc

/-- The blocking scan and the async-subscriber extraction agree on every
event stream a download task can emit. -/
theorem extract_eq_asyncTerminal_download
    (dec : List Nat → Except String (List Nat))
    (files : List (String × List Nat)) (key : String) :
    extractDownloadOutcome (downloadTaskRun dec files key)
      = asyncTerminalDownload (downloadTaskRun dec files key) := by
  unfold downloadTaskRun
  split
  · rfl
  · split
    · rfl
    · rfl

/-- C3: for the local-directory handle, `upload_blocking`,
`download_blocking` and `exists_blocking` leave every subscriber queue
(and the task-id counter) untouched, and each returns exactly the terminal
outcome that the corresponding async call — which delivers the same task's
events, stamped with the allocated id, to all subscribers — would produce.
(The S3 backend obtains these methods from the same blanket
`impl<T: TaskProvider> BlobStorage for T`, so the scans are the same
functions of the task's event stream.) -/
theorem blocking_variants_inline_and_agree (H : List Nat → List Nat)
    (enc : List Nat → List Nat) (dec : List Nat → Except String (List Nat))
    (h : LocalHandle) (data : List Nat) (key : Option String)
    (dk ek : String) :
    ((h.upload_blocking H enc data key).1.queues = h.queues
      ∧ (h.upload_blocking H enc data key).1.next_task_id = h.next_task_id
      ∧ (h.upload H enc data key).1.queues
          = h.queues.map (fun q =>
              q ++ (uploadTaskRun H enc h.local_dir_path h.files key data).2.map
                (fun c => Event.mk h.next_task_id c))
      ∧ (h.upload_blocking H enc data key).2
          = asyncTerminalUpload
              (uploadTaskRun H enc h.local_dir_path h.files key data).2)
    ∧ ((h.download_blocking dec dk).1 = h
      ∧ (h.download dec dk).1.queues
          = h.queues.map (fun q =>
              q ++ (downloadTaskRun dec h.files dk).map
                (fun c => Event.mk h.next_task_id c))
      ∧ (h.download_blocking dec dk).2
          = asyncTerminalDownload (downloadTaskRun dec h.files dk))
    ∧ ((h.exists_blocking ek).1 = h
      ∧ (h.exists ek).1.queues
          = h.queues.map (fun q =>
              q ++ (existsTaskRun h.files ek).map
                (fun c => Event.mk h.next_task_id c))
      ∧ (h.exists_blocking ek).2
          = asyncTerminalExists (existsTaskRun h.files ek)) := by
  refine ⟨⟨rfl, rfl, rfl, rfl⟩, ⟨rfl, rfl, ?_⟩, ⟨rfl, rfl, rfl⟩⟩
  exact extract_eq_asyncTerminal_download dec h.files dk

/-- C7: for a valid directory index `p`, `add` fails with the
duplicate-name error exactly when `p` already has a child named
`e.name`; otherwise it appends `e` to the arena, links it into `p`'s
child map under its name, and returns the new id, which is the arena
index of the appended entry (the old arena length). -/
theorem add_spec (m : Manifest) (e : Entry) (p : Nat)
    (hp : isDirAt m p = true) :
    ((childrenAt m p).any (fun pr => pr.1 == e.name) = true →
        m.add e p = Except.error "Entry with same name exists") ∧
    ((childrenAt m p).any (fun pr => pr.1 == e.name) = false →
        m.add e p = Except.ok
          ({ root := m.root,
             entries := (m.entries ++ [e]).set p
               (Entry.directory (dirNameAt m p)
                 (childrenAt m p ++ [(e.name, m.entries.length)])) },
            m.entries.length)) := by
  rcases hme : m.entries[p]? with _ | e'
  · simp [isDirAt, hme] at hp
  · cases e' with
    | file n k s => simp [isDirAt, hme] at hp
    | directory n ch =>
      constructor
      · intro hdup
        simp [childrenAt, hme] at hdup
        simp [Manifest.add, hme, hdup]
      · intro hdup
        simp [childrenAt, hme] at hdup
        simp [Manifest.add, hme, hdup, childrenAt, dirNameAt]
        intro x hx
        exact hdup e.name x hx rfl

/-- Witness for `add_spec`: adding a file named `"f"` under the root of a
fresh manifest succeeds with id 1 and links `("f", 1)` into the root. -/
theorem add_spec_witness :
    Manifest.new.add (Entry.file "f" [7] 5) 0
      = Except.ok
          ({ root := Manifest.new.root,
             entries := (Manifest.new.entries ++ [Entry.file "f" [7] 5]).set 0
               (Entry.directory (dirNameAt Manifest.new 0)
                 (childrenAt Manifest.new 0
                   ++ [((Entry.file "f" [7] 5).name, Manifest.new.entries.length)])) },
            Manifest.new.entries.length) :=
  (add_spec Manifest.new (Entry.file "f" [7] 5) 0 (by decide)).2 (by decide)

/-- Child-map bindings decode back to themselves. -/
theorem decodeChildren_encodeChild (ch : List (String × Nat)) :
    decodeChildren (ch.map encodeChild) = some ch := by
  induction ch with
  | nil => rfl
  | cons hd tl ih =>
    simp [decodeChildren, ih, encodeChild, decodeChild, decodeEntryId,
      encodeEntryId]

/-- Entries decode back to themselves when their blob key is 32 bytes. -/
theorem decodeEntry_encodeEntry (e : Entry) (he : entryKeyLen32 e = true) :
    decodeEntry (encodeEntry e) = some e := by
  cases e with
  | directory name ch =>
    simp [encodeEntry, decodeEntry, decodeDirPayload, decodeChildren_encodeChild]
  | file name key size =>
    simp [entryKeyLen32] at he
    simp [encodeEntry, decodeEntry, decodeFilePayload, he]

/-- Entry lists decode back to themselves. -/
theorem decodeEntries_encodeEntry (l : List Entry)
    (hl : l.all entryKeyLen32 = true) :
    decodeEntries (l.map encodeEntry) = some l := by
  induction l with
  | nil => rfl
  | cons hd tl ih =>
    simp only [List.all_cons, Bool.and_eq_true] at hl
    simp [decodeEntries, decodeEntry_encodeEntry hd hl.1, ih hl.2]

/-- C4: deserializing a serialized manifest succeeds and returns the
manifest itself (same stats, same names, parent/child relations, blob keys
and sizes), for every manifest whose blob keys are 32 bytes long — as all
real blob keys are. -/
theorem manifest_roundtrip (m : Manifest) (hk : keysLen32 m = true) :
    Manifest.from_bytes (Manifest.to_bytes m) = some m := by
  unfold Manifest.to_bytes Manifest.from_bytes
  simp [encodeEntryId, decodeEntryId, decodeEntries_encodeEntry m.entries hk]

/-- Witness for `manifest_roundtrip`: a concrete two-entry manifest with a
32-byte blob key round-trips. -/
theorem manifest_roundtrip_witness :
    Manifest.from_bytes (Manifest.to_bytes
      { root := 0,
        entries := [Entry.directory "ROOT" [("f", 1)],
          Entry.file "f" (List.replicate 32 7) 5] })
      = some
          { root := 0,
            entries := [Entry.directory "ROOT" [("f", 1)],
              Entry.file "f" (List.replicate 32 7) 5] } :=
  manifest_roundtrip _ (by decide)

/-- C8: `Mirror::init` never overwrites an existing remote manifest.  If
the blob `"manifest"` exists, it fails with the already-initialized error
and the store is unchanged; otherwise it succeeds, having stored — under
the exact key `"manifest"` — the encryption of the serialized fresh empty
manifest, and leaves every other blob in place. -/
theorem init_spec (H : List Nat → List Nat) (enc : List Nat → List Nat)
    (render : MsgValue → List Nat) (h : LocalHandle) :
    (h.files.any (fun pr => pr.1 == "manifest") = true →
        Mirror.init H enc render h
          = (h, Except.error "Manifest already exists in remote")) ∧
    (h.files.any (fun pr => pr.1 == "manifest") = false →
        Mirror.init H enc render h
          = ({ h with files :=
                ("manifest", enc (render (Manifest.to_bytes Manifest.new)))
                  :: h.files },
             Except.ok ())) := by
  constructor <;> intro hx <;>
    simp [Mirror.init, LocalHandle.exists_blocking, existsTaskRun,
      extractExistsOutcome, hx, LocalHandle.upload_blocking, uploadTaskRun,
      extractUploadOutcome]

/-- Witness for `init_spec`: on an empty store, `init` succeeds and stores
the fresh manifest blob under `"manifest"`. -/
theorem init_spec_witness :
    Mirror.init (fun _ => []) (fun bs => bs) (fun _ => [3])
        { local_dir_path := "/d", files := [], queues := [], next_task_id := 0 }
      = ({ local_dir_path := "/d", files := [("manifest", [3])], queues := [],
           next_task_id := 0 },
         Except.ok ()) :=
  (init_spec (fun _ => []) (fun bs => bs) (fun _ => [3])
    { local_dir_path := "/d", files := [], queues := [], next_task_id := 0 }).2
    rfl

/-- Slash-splitting always produces at least one piece. -/
theorem splitOnSlash_ne_nil (l : List Char) : splitOnSlash l ≠ [] := by
  cases l with
  | nil => simp [splitOnSlash]
  | cons c rest =>
    simp only [splitOnSlash]
    split
    · simp
    · split <;> simp

/-- Prepending a slash-free piece extends the first piece of a split. -/
theorem splitOnSlash_append (n l : List Char) (hn : '/' ∉ n) :
    splitOnSlash (n ++ l)
      = (n ++ (splitOnSlash l).headI) :: (splitOnSlash l).tail := by
  induction n with
  | nil =>
    simp only [List.nil_append]
    rcases hsp : splitOnSlash l with _ | ⟨p, ps⟩
    · exact absurd hsp (splitOnSlash_ne_nil l)
    · simp
  | cons c n ih =>
    have hc : ¬(c = '/') := fun h => hn (h ▸ List.mem_cons_self c n)
    have hn' : '/' ∉ n := fun h => hn (List.mem_cons_of_mem _ h)
    simp only [List.cons_append, splitOnSlash, if_neg hc]
    rw [List.append_eq, ih hn']

/-- Splitting undoes interleaving for slash-free pieces. -/
theorem splitOnSlash_intercalate (ns : List (List Char)) (hne : ns ≠ [])
    (hn : ∀ n ∈ ns, '/' ∉ n) :
    splitOnSlash (intercalateSlash ns) = ns := by
  induction ns with
  | nil => exact absurd rfl hne
  | cons n rest ih =>
    cases rest with
    | nil =>
      have h := splitOnSlash_append n [] (hn n (List.mem_cons_self n []))
      simpa [intercalateSlash, splitOnSlash] using h
    | cons m rest2 =>
      have h1 : intercalateSlash (n :: m :: rest2)
          = n ++ '/' :: intercalateSlash (m :: rest2) := rfl
      have h2 : splitOnSlash ('/' :: intercalateSlash (m :: rest2))
          = [] :: splitOnSlash (intercalateSlash (m :: rest2)) := by
        simp [splitOnSlash]
      have h3 : splitOnSlash (intercalateSlash (m :: rest2)) = m :: rest2 :=
        ih (by simp) (fun x hx => hn x (List.mem_cons_of_mem _ hx))
      rw [h1, splitOnSlash_append n _ (hn n (List.mem_cons_self n _)), h2, h3]
      simp

/-- For non-empty lists of normal names, `Path::components` of their join
recovers exactly the names as normal components. -/
theorem pathComponents_joinNames (names : List String) (hne : names ≠ [])
    (hn : ∀ s ∈ names, isNormalName s = true) :
    pathComponents (joinNames names) = names.map Component.normal := by
  have hsplit : splitOnSlash (joinNames names).data = names.map String.data := by
    refine splitOnSlash_intercalate _ (by simpa using hne) ?_
    intro n hnmem
    rcases List.mem_map.mp hnmem with ⟨s, hs, rfl⟩
    exact (of_decide_eq_true (hn s hs)).2.2.2
  unfold pathComponents
  rw [hsplit]
  cases names with
  | nil => exact absurd rfl hne
  | cons s rest =>
    obtain ⟨h1, h2, h3, _⟩ := of_decide_eq_true (hn s (List.mem_cons_self s rest))
    have hfilter : (rest.map String.data).filter
        (fun p => !(p == []) && !(p == ['.'])) = rest.map String.data := by
      refine List.filter_eq_self.mpr ?_
      intro p hp
      rcases List.mem_map.mp hp with ⟨t, ht, rfl⟩
      obtain ⟨g1, g2, -, -⟩ :=
        of_decide_eq_true (hn t (List.mem_cons_of_mem _ ht))
      simp [g1, g2]
    have hmap : (rest.map String.data).map toComponent
        = rest.map Component.normal := by
      rw [List.map_map]
      refine List.map_congr_left ?_
      intro t ht
      obtain ⟨-, -, g3, -⟩ :=
        of_decide_eq_true (hn t (List.mem_cons_of_mem _ ht))
      simp only [Function.comp_apply, toComponent, if_neg g3]
    simp only [List.map_cons, componentsOfPieces]
    rw [if_neg h1, if_neg h2, hfilter, hmap]
    simp only [toComponent, if_neg h3]

/-- In a duplicate-free child map, lookup by name finds the member. -/
theorem find?_eq_of_mem_nodup {l : List (String × Nat)} {n : String} {c : Nat}
    (hmem : (n, c) ∈ l) (hnd : (l.map Prod.fst).Nodup) :
    l.find? (fun pr => pr.1 == n) = some (n, c) := by
  induction l with
  | nil => cases hmem
  | cons hd tl ih =>
    simp only [List.map_cons, List.nodup_cons] at hnd
    rcases List.mem_cons.mp hmem with heq | hmem2
    · rw [← heq]
      simp [List.find?]
    · have hhd : (hd.1 == n) = false := by
        refine beq_eq_false_iff_ne.mpr ?_
        intro h
        exact hnd.1 (h ▸ List.mem_map.mpr ⟨(n, c), hmem2, rfl⟩)
      rw [List.find?_cons_of_neg _ (by simp [hhd]), ih hmem2 hnd.2]

/-- Every entry reachable from the root is a valid arena index. -/
theorem ReachAt.lt_len {m : Manifest} (hwf : Wf m) {e : Nat}
    {names : List String} (hr : ReachAt m e names) :
    e < m.entries.length := by
  induction hr with
  | root => exact hwf.1 ▸ hwf.2.1
  | @child p names n c hp hmem ih =>
    exact (hwf.2.2.2.1 p ih (n, c) hmem).1

/-- The root is only reached by the empty name chain (no directory can
have the root as a child since child ids strictly exceed parent ids). -/
theorem ReachAt.eq_root_nil {m : Manifest} (hwf : Wf m) {x : Nat}
    {names : List String} (hr : ReachAt m x names) :
    x = m.root → names = [] := by
  induction hr with
  | root => intro; rfl
  | @child p names n c hp hmem ih =>
    intro hcroot
    exfalso
    have hplen : p < m.entries.length := ReachAt.lt_len hwf hp
    have h2 := (hwf.2.2.2.1 p hplen (n, c) hmem).2.1
    rw [hcroot, hwf.1] at h2
    exact Nat.not_lt_zero _ h2

/-- A reached entry other than the root has a non-empty name chain. -/
theorem ReachAt.names_ne_nil {m : Manifest} {e : Nat} {names : List String}
    (hr : ReachAt m e names) (he : e ≠ m.root) : names ≠ [] := by
  cases hr with
  | root => exact absurd rfl he
  | child hp hmem => simp

/-- A directory with a child in its map is indeed a directory entry. -/
theorem isDirAt_of_mem_children {m : Manifest} {p : Nat} {pr : String × Nat}
    (hmem : pr ∈ childrenAt m p) : isDirAt m p = true := by
  unfold childrenAt at hmem
  unfold isDirAt
  rcases h : m.entries[p]? with _ | e
  · rw [h] at hmem
    cases hmem
  · rw [h] at hmem
    cases e with
    | directory dn ch => rfl
    | file fn k s => cases hmem

/-- In a well-formed manifest the parent search finds exactly the (unique)
parent of any child edge. -/
theorem parentOf_eq {m : Manifest} (hwf : Wf m) {p c : Nat} {n : String}
    (hp : p < m.entries.length) (hmem : (n, c) ∈ childrenAt m p) :
    parentOf m c = some p := by
  have hc : c < m.entries.length := (hwf.2.2.2.1 p hp (n, c) hmem).1
  have hany : (childrenAt m p).any (fun pr => pr.2 == c) = true :=
    List.any_eq_true.mpr ⟨(n, c), hmem, by simp⟩
  unfold parentOf
  rcases hfind : (List.range m.entries.length).find?
      (fun x => (childrenAt m x).any (fun pr => pr.2 == c)) with _ | q
  · exfalso
    have := List.find?_eq_none.mp hfind p (List.mem_range.mpr hp)
    exact this hany
  · have hq1 : ((childrenAt m q).any (fun pr => pr.2 == c)) = true := by
      have := List.find?_some hfind
      simpa using this
    have hq2 : q < m.entries.length :=
      List.mem_range.mp (List.mem_of_find?_eq_some hfind)
    rw [hwf.2.2.2.2.2 c hc q hq2 p hp hq1 hany]

/-- The upward walk collects exactly the reversed chain of edge names. -/
theorem climb_spec {m : Manifest} (hwf : Wf m) {e : Nat}
    {names : List String} (hr : ReachAt m e names) :
    e ≠ m.root → ∀ fuel, e < fuel → climb m fuel e = some names.reverse := by
  induction hr with
  | root => intro h; exact absurd rfl h
  | @child p names n c hp hmem ih =>
    intro _ fuel hfuel
    have hplen : p < m.entries.length := ReachAt.lt_len hwf hp
    have hcinfo := hwf.2.2.2.1 p hplen (n, c) hmem
    have hclen : c < m.entries.length := hcinfo.1
    have hpc : p < c := hcinfo.2.1
    have hname : entryNameAt m c = n := hcinfo.2.2
    cases fuel with
    | zero => omega
    | succ f =>
      have hget : m.entries[c]? = some m.entries[c] :=
        List.getElem?_eq_getElem hclen
      have hnamec : (m.entries[c]).name = n := by
        unfold entryNameAt at hname
        rw [hget] at hname
        exact hname
      simp only [climb, hget, parentOf_eq hwf hplen hmem]
      by_cases hproot : p = m.root
      · rw [if_pos hproot]
        have hnil : names = [] := ReachAt.eq_root_nil hwf hp hproot
        subst hnil
        simp [hnamec]
      · rw [if_neg hproot, ih hproot f (by omega)]
        simp [hnamec, List.reverse_append]

/-- One `joinStep` across a child edge resolves the child. -/
theorem joinStep_edge {m : Manifest} (hwf : Wf m) {p c : Nat} {n : String}
    (hplen : p < m.entries.length) (hmem : (n, c) ∈ childrenAt m p)
    (lastv : Option Nat) :
    ∃ cd, joinStep m { cd := childrenAt m p, last := lastv }
        (Component.normal n) = Except.ok { cd := cd, last := some c }
      ∧ (isDirAt m c = true → cd = childrenAt m c) := by
  have hfind : (childrenAt m p).find? (fun pr => pr.1 == n) = some (n, c) :=
    find?_eq_of_mem_nodup hmem (hwf.2.2.2.2.1 p hplen)
  have hclen : c < m.entries.length := (hwf.2.2.2.1 p hplen (n, c) hmem).1
  have hget : m.entries[c]? = some m.entries[c] :=
    List.getElem?_eq_getElem hclen
  cases hec : m.entries[c] with
  | directory dn ch =>
    refine ⟨ch, ?_, fun _ => ?_⟩
    · simp [joinStep, hfind, hget, hec]
    · simp [childrenAt, hget, hec]
  | file fn k s =>
    refine ⟨childrenAt m p, ?_, fun hdir => ?_⟩
    · simp [joinStep, hfind, hget, hec]
    · exfalso
      simp [isDirAt, hget, hec] at hdir

/-- The downward fold of `join_and_get_entry_id` along a reachability
chain lands on the reached entry. -/
theorem joinFold_spec {m : Manifest} (hwf : Wf m) {e : Nat}
    {names : List String} (hr : ReachAt m e names) :
    e ≠ m.root →
    ∃ cd, (names.map Component.normal).foldlM (joinStep m)
        { cd := childrenAt m m.root, last := none }
      = Except.ok { cd := cd, last := some e }
      ∧ (isDirAt m e = true → cd = childrenAt m e) := by
  induction hr with
  | root => intro h; exact absurd rfl h
  | @child p names n c hp hmem ih =>
    intro _
    have hplen : p < m.entries.length := ReachAt.lt_len hwf hp
    by_cases hproot : p = m.root
    · have hnil : names = [] := ReachAt.eq_root_nil hwf hp hproot
      subst hnil
      obtain ⟨cd, hstep, hdir⟩ := joinStep_edge hwf hplen hmem none
      refine ⟨cd, ?_, hdir⟩
      rw [← hproot]
      simp [List.foldlM, hstep]
    · obtain ⟨cdp, hfold, hdirp⟩ := ih hproot
      have hcdp : cdp = childrenAt m p := hdirp (isDirAt_of_mem_children hmem)
      subst hcdp
      obtain ⟨cd, hstep, hdir⟩ := joinStep_edge hwf hplen hmem (some p)
      refine ⟨cd, ?_, hdir⟩
      rw [List.map_append, List.foldlM_append, hfold]
      simp only [List.foldlM, Bind.bind, Except.bind]
      rw [hstep]
      rfl

/-- Every edge name along a reachability chain is the (normal) name of
the entry it leads to. -/
theorem reach_names_normal {m : Manifest} (hwf : Wf m)
    (hnorm : namesNormal m = true) {e : Nat} {names : List String}
    (hr : ReachAt m e names) : ∀ s ∈ names, isNormalName s = true := by
  induction hr with
  | root => intro s hs; cases hs
  | @child p names n c hp hmem ih =>
    intro s hs
    rcases List.mem_append.mp hs with hs1 | hs2
    · exact ih s hs1
    · rw [List.mem_singleton.mp hs2]
      have hplen := ReachAt.lt_len hwf hp
      have hinfo := hwf.2.2.2.1 p hplen (n, c) hmem
      have hclen := hinfo.1
      have hname := hinfo.2.2
      have hget : m.entries[c]? = some m.entries[c] :=
        List.getElem?_eq_getElem hclen
      unfold namesNormal at hnorm
      have hn := List.all_eq_true.mp hnorm _ (List.getElem_mem hclen)
      unfold entryNameAt at hname
      rw [hget] at hname
      have hname2 : (m.entries[c]).name = n := by simpa using hname
      rw [← hname2]
      simpa using hn

/-- C5 (amended): in a well-formed manifest — tree-shaped with
name-consistent child maps, as every manifest built through
`Manifest::add` is — whose entry names are single normal path components,
resolving the full path of any non-root reachable entry from the root
returns that entry:
`join_and_get_entry_id(root, get_full_path(e)) = Ok(e)`. -/
theorem full_path_resolves (m : Manifest) (e : Nat) (names : List String)
    (hwf : Wf m) (hnorm : namesNormal m = true)
    (hr : ReachAt m e names) (he : e ≠ m.root) :
    get_full_path m e = some (joinNames names)
    ∧ m.join_and_get_entry_id m.root (joinNames names) = Except.ok e := by
  have hnames := reach_names_normal hwf hnorm hr
  have hne : names ≠ [] := hr.names_ne_nil he
  have hcomps : pathComponents (joinNames names) = names.map Component.normal :=
    pathComponents_joinNames names hne hnames
  constructor
  · unfold get_full_path
    rw [if_neg he, climb_spec hwf hr he m.entries.length (hr.lt_len hwf)]
    simp
  · have hroot0 : m.root = 0 := hwf.1
    have hrootdir : isDirAt m 0 = true := hwf.2.2.1
    rcases hg : m.entries[m.root]? with _ | er
    · rw [hroot0] at hg
      simp [isDirAt, hg] at hrootdir
    · cases er with
      | file fn k s =>
        rw [hroot0] at hg
        simp [isDirAt, hg] at hrootdir
      | directory dn ch =>
        have hch : childrenAt m m.root = ch := by simp [childrenAt, hg]
        obtain ⟨cd, hfold, -⟩ := joinFold_spec hwf hr he
        rw [hch] at hfold
        have hempty : (pathComponents (joinNames names)).isEmpty = false := by
          rw [hcomps]
          cases names with
          | nil => exact absurd rfl hne
          | cons a b => rfl
        unfold Manifest.join_and_get_entry_id
        rw [hg]
        simp only [hcomps] at hfold hempty ⊢
        rw [hfold, hempty]
        simp

/-- Counterexample to the unqualified C5 claim: in `dotNameManifest` the
file entry 1 is reachable (along the edge named `"."`) and is not the
root, but its full path is `"."`, whose single component is `CurDir`,
which `join_and_get_entry_id` rejects — resolution does not return the
entry. -/
theorem full_path_resolves_cex :
    ReachAt dotNameManifest 1 ["."]
    ∧ (1 : Nat) ≠ dotNameManifest.root
    ∧ get_full_path dotNameManifest 1 = some "."
    ∧ Manifest.join_and_get_entry_id dotNameManifest 0 "." ≠ Except.ok 1 := by
  refine ⟨?_, by decide, by decide, by decide⟩
  have h := ReachAt.child (m := dotNameManifest) ReachAt.root
    (n := ".") (c := 1) (by decide)
  simpa using h

/-- Witness for `full_path_resolves`: in the concrete well-formed manifest
`ROOT/d/f`, the file `f` (id 2, reached along `["d", "f"]`) resolves back
to itself from its full path `"d/f"`. -/
theorem full_path_resolves_witness :
    get_full_path demoManifest 2 = some (joinNames ["d", "f"])
    ∧ Manifest.join_and_get_entry_id demoManifest 0 (joinNames ["d", "f"])
        = Except.ok 2 := by
  have hreach : ReachAt demoManifest 2 ["d", "f"] := by
    have h1 := ReachAt.child (m := demoManifest) ReachAt.root
      (n := "d") (c := 1) (by decide)
    have h2 := ReachAt.child (m := demoManifest) h1
      (n := "f") (c := 2) (by decide)
    simpa using h2
  have h := full_path_resolves demoManifest 2 ["d", "f"]
    (by
      refine ⟨by decide, by decide, by decide, ?_, by decide, by decide⟩
      decide)
    (by decide) hreach (by decide)
  exact h

/-- The fuel-bounded subtree count is stable once the fuel covers the
remaining arena above the index (children have strictly larger ids). -/
theorem dirCntF_stable (m : Manifest) (hwf : Wf m) :
    ∀ k d, d < m.entries.length → m.entries.length - d = k →
      ∀ f1 f2, k ≤ f1 → k ≤ f2 → dirCntF m f1 d = dirCntF m f2 d := by
  intro k
  induction k using Nat.strong_induction_on with
  | _ k ih =>
    intro d hd hk f1 f2 h1 h2
    have hk1 : 1 ≤ k := by omega
    obtain ⟨f1p, rfl⟩ : ∃ x, f1 = x + 1 := ⟨f1 - 1, by omega⟩
    obtain ⟨f2p, rfl⟩ : ∃ x, f2 = x + 1 := ⟨f2 - 1, by omega⟩
    rcases hg : m.entries[d]? with _ | e
    · simp only [dirCntF, hg]
    cases e with
    | file fn bk s => simp only [dirCntF, hg]
    | directory dn ch =>
      have hch : childrenAt m d = ch := by simp [childrenAt, hg]
      simp only [dirCntF, hg]
      congr 1
      apply congrArg
      refine List.map_congr_left ?_
      intro pr hpr
      have hprch : pr ∈ childrenAt m d := hch ▸ List.mem_of_mem_filter hpr
      have hinfo := hwf.2.2.2.1 d hd pr hprch
      have hc : pr.2 < m.entries.length := hinfo.1
      have hdc : d < pr.2 := hinfo.2.1
      exact ih (m.entries.length - pr.2) (by omega) pr.2 hc rfl f1p f2p
        (by omega) (by omega)

/-- The subtree count of a directory equals its child map's fuel charge. -/
theorem dirCntF_eq_chMeasure (m : Manifest) (hwf : Wf m) {d : Nat} {dn : String}
    (hd : d < m.entries.length) {ch : List (String × Nat)}
    (hg : m.entries[d]? = some (Entry.directory dn ch))
    (hch : childrenAt m d = ch) :
    dirCntF m m.entries.length d = chMeasure m ch := by
  obtain ⟨fp, hf⟩ : ∃ x, m.entries.length = x + 1 :=
    ⟨m.entries.length - 1, by omega⟩
  conv_lhs => rw [hf]
  simp only [dirCntF, hg]
  unfold chMeasure
  congr 1
  apply congrArg
  refine List.map_congr_left ?_
  intro pr hpr
  have hprch : pr ∈ childrenAt m d := hch ▸ List.mem_of_mem_filter hpr
  have hinfo := hwf.2.2.2.1 d hd pr hprch
  exact dirCntF_stable m hwf (m.entries.length - pr.2) pr.2 hinfo.1 rfl fp
    m.entries.length (by omega) (by omega)

/-- One diff body application on a child of a self-pair: the accumulator
is untouched and at most the matched subdirectory's self-pair is pushed. -/
theorem diffStep_self (m : Manifest) (hwf : Wf m) {d : Nat}
    (hd : d < m.entries.length) (pr : String × Nat)
    (hprch : pr ∈ childrenAt m d) (acc : DiffManifests)
    (rest : List (List (String × Nat) × List (String × Nat)))
    (hrest : ∀ q ∈ rest, GoodPair m q) :
    ∃ stack1, diffStep m m (childrenAt m d) (acc, rest) pr = (acc, stack1)
      ∧ (∀ q ∈ stack1, GoodPair m q)
      ∧ stackMeasure m stack1 ≤
          (if isDirAt m pr.2 then dirCntF m m.entries.length pr.2 else 0)
          + stackMeasure m rest := by
  have hinfo := hwf.2.2.2.1 d hd pr hprch
  have hc : pr.2 < m.entries.length := hinfo.1
  have hname : entryNameAt m pr.2 = pr.1 := hinfo.2.2
  have hget : m.entries[pr.2]? = some m.entries[pr.2] :=
    List.getElem?_eq_getElem hc
  have hnamec : (m.entries[pr.2]).name = pr.1 := by
    unfold entryNameAt at hname
    rw [hget] at hname
    simpa using hname
  unfold diffStep
  by_cases hhar : get_full_path m pr.2 = some ".har"
  · rw [if_pos hhar]
    exact ⟨rest, rfl, hrest, by split <;> omega⟩
  · rw [if_neg hhar]
    cases hec : m.entries[pr.2] with
    | file fn bk s =>
      have hfn : fn = pr.1 := by rw [hec] at hnamec; exact hnamec
      have hanyb : (childrenAt m d).any (fun q => q.1 == fn) = true :=
        List.any_eq_true.mpr ⟨pr, hprch, by simp [hfn]⟩
      rw [hget, hec]
      simp only [hanyb, if_true]
      exact ⟨rest, rfl, hrest, by split <;> omega⟩
    | directory dn2 ch2 =>
      have hdn : dn2 = pr.1 := by rw [hec] at hnamec; exact hnamec
      have hmem2 : (pr.1, pr.2) ∈ childrenAt m d := by
        simpa using hprch
      have hfind : (childrenAt m d).find? (fun q => q.1 == dn2)
          = some (pr.1, pr.2) := by
        rw [hdn]
        exact find?_eq_of_mem_nodup hmem2 (hwf.2.2.2.2.1 d hd)
      have hdirp : isDirAt m pr.2 = true := by
        simp [isDirAt, hget, hec]
      have hchp : childrenAt m pr.2 = ch2 := by
        simp [childrenAt, hget, hec]
      simp only [hget, hec, hfind]
      refine ⟨(ch2, ch2) :: rest, rfl, ?_, ?_⟩
      · intro q hq
        rcases List.mem_cons.mp hq with rfl | hq2
        · exact ⟨rfl, pr.2, hc, hdirp, hchp⟩
        · exact hrest q hq2
      · have hcm : chMeasure m ch2 = dirCntF m m.entries.length pr.2 := by
          have := @dirCntF_eq_chMeasure m hwf pr.2 dn2 hc ch2
            (by rw [hget, hec]) hchp
          exact this.symm
        have hsm : stackMeasure m ((ch2, ch2) :: rest)
            = chMeasure m ch2 + stackMeasure m rest := by
          simp [stackMeasure]
        rw [hsm, hcm, if_pos hdirp]

/-- Folding the diff body over a self-pair's children leaves the
accumulator untouched and pushes only good pairs, charging at most the
children's subtree counts. -/
theorem diff_fold_self (m : Manifest) (hwf : Wf m) {d : Nat}
    (hd : d < m.entries.length) :
    ∀ sub : List (String × Nat), (∀ pr ∈ sub, pr ∈ childrenAt m d) →
    ∀ (acc : DiffManifests)
      (rest : List (List (String × Nat) × List (String × Nat))),
    (∀ q ∈ rest, GoodPair m q) →
    ∃ stack2,
      sub.foldl (diffStep m m (childrenAt m d)) (acc, rest) = (acc, stack2)
      ∧ (∀ q ∈ stack2, GoodPair m q)
      ∧ stackMeasure m stack2 ≤
          ((sub.filter (fun pr => isDirAt m pr.2)).map
            (fun pr => dirCntF m m.entries.length pr.2)).sum
          + stackMeasure m rest := by
  intro sub
  induction sub with
  | nil =>
    intro _ acc rest hrest
    exact ⟨rest, rfl, hrest, by simp⟩
  | cons pr sub ih =>
    intro hsub acc rest hrest
    obtain ⟨stack1, hstep_eq, hgood1, hmeas1⟩ :=
      diffStep_self m hwf hd pr (hsub pr (List.mem_cons_self pr sub)) acc rest
        hrest
    obtain ⟨stack2, hfold_eq, hgood2, hmeas2⟩ :=
      ih (fun q hq => hsub q (List.mem_cons_of_mem _ hq)) acc stack1 hgood1
    refine ⟨stack2, ?_, hgood2, ?_⟩
    · simp only [List.foldl_cons, hstep_eq, hfold_eq]
    · have hsum : ((List.filter (fun pr => isDirAt m pr.2) (pr :: sub)).map
          (fun pr => dirCntF m m.entries.length pr.2)).sum
          = (if isDirAt m pr.2 then dirCntF m m.entries.length pr.2 else 0)
            + ((sub.filter (fun pr => isDirAt m pr.2)).map
              (fun pr => dirCntF m m.entries.length pr.2)).sum := by
        by_cases hdp : isDirAt m pr.2 <;> simp [List.filter_cons, hdp]
      rw [hsum]
      omega

/-- With fuel covering the stack's charge, the self-diff loop drains the
stack without recording anything. -/
theorem diffLoop_self (m : Manifest) (hwf : Wf m) :
    ∀ fuel stack acc, (∀ q ∈ stack, GoodPair m q) →
      stackMeasure m stack ≤ fuel →
      diffLoop m m fuel stack acc = some acc := by
  intro fuel
  induction fuel with
  | zero =>
    intro stack acc hgood hmeas
    cases stack with
    | nil => rfl
    | cons q rest =>
      exfalso
      have h1 : 1 ≤ chMeasure m q.1 := by unfold chMeasure; omega
      have h2 : stackMeasure m (q :: rest)
          = chMeasure m q.1 + stackMeasure m rest := by
        simp [stackMeasure]
      omega
  | succ f ih =>
    intro stack acc hgood hmeas
    cases stack with
    | nil => rfl
    | cons q rest =>
      obtain ⟨qa, qb⟩ := q
      obtain ⟨hq21, d, hd, hdir, hch⟩ := hgood (qa, qb)
        (List.mem_cons_self (qa, qb) rest)
      simp only at hq21 hch
      subst hq21
      subst hch
      obtain ⟨stack2, hfold, hgood2, hmeas2⟩ :=
        diff_fold_self m hwf hd (childrenAt m d) (fun pr hpr => hpr) acc rest
          (fun p hp => hgood p (List.mem_cons_of_mem _ hp))
      simp only [diffLoop, hfold]
      refine ih stack2 acc hgood2 ?_
      have h2 : stackMeasure m
          ((childrenAt m d, childrenAt m d) :: rest)
          = chMeasure m (childrenAt m d) + stackMeasure m rest := by
        simp [stackMeasure]
      have h3 : chMeasure m (childrenAt m d)
          = 1 + ((List.filter (fun pr => isDirAt m pr.2)
              (childrenAt m d)).map
            (fun pr => dirCntF m m.entries.length pr.2)).sum := rfl
      omega

/-- C6 (amended): for every well-formed manifest — tree-shaped with
name-consistent, duplicate-free child maps, as built by `Manifest::add` —
diffing the manifest against itself (hash check off) succeeds and reports
nothing extra: no top extras, zero extra files, zero extra directories. -/
theorem diff_self_empty (m : Manifest) (hwf : Wf m) :
    diff_manifests m m = some
      { top_extra_ids_in_a := [], paths_of_top_extra_in_a := [],
        extra_files_in_a := 0, extra_dirs_in_a := 0 } := by
  have hroot0 := hwf.1
  have hrootdir := hwf.2.2.1
  have hlen := hwf.2.1
  rcases hg : m.entries[m.root]? with _ | er
  · rw [hroot0] at hg
    simp [isDirAt, hg] at hrootdir
  cases er with
  | file fn k s =>
    rw [hroot0] at hg
    simp [isDirAt, hg] at hrootdir
  | directory dn ch =>
    have hch : childrenAt m m.root = ch := by simp [childrenAt, hg]
    have hrootlt : m.root < m.entries.length := by omega
    have hdirroot : isDirAt m m.root = true := by rw [hroot0]; exact hrootdir
    have hcm : dirCntF m m.entries.length m.root = chMeasure m ch :=
      dirCntF_eq_chMeasure m hwf hrootlt hg hch
    have hloop := diffLoop_self m hwf (dirCntF m m.entries.length m.root)
      [(ch, ch)]
      { top_extra_ids_in_a := [], paths_of_top_extra_in_a := [],
        extra_files_in_a := 0, extra_dirs_in_a := 0 }
      (by
        intro q hq
        rw [List.mem_singleton.mp hq]
        exact ⟨rfl, m.root, hrootlt, hdirroot, hch⟩)
      (by
        have : stackMeasure m [(ch, ch)] = chMeasure m ch := by
          simp [stackMeasure]
        omega)
    unfold diff_manifests
    simp only [hg, hloop, List.map_nil]

/-- Counterexample to the unqualified C6 claim: on `badNameManifest`
(root maps key `"x"` to a file entry named `"y"`; obtainable through
`from_bytes`) the self-diff reports one extra file, because the code
looks the child's *recorded* name up among the other side's map keys. -/
theorem diff_self_empty_cex :
    diff_manifests badNameManifest badNameManifest = some
      { top_extra_ids_in_a := [1], paths_of_top_extra_in_a := [some "y"],
        extra_files_in_a := 1, extra_dirs_in_a := 0 } := by
  decide

/-- Witness for `diff_self_empty`: self-diff of the concrete well-formed
manifest `ROOT/d/f` reports nothing extra. -/
theorem diff_self_empty_witness :
    diff_manifests demoManifest demoManifest = some
      { top_extra_ids_in_a := [], paths_of_top_extra_in_a := [],
        extra_files_in_a := 0, extra_dirs_in_a := 0 } :=
  diff_self_empty demoManifest (by
    refine ⟨by decide, by decide, by decide, ?_, by decide, by decide⟩
    decide)

/-- Any indexed input size is bounded by the largest input. -/
theorem getD_le_maxInput (inputs : List Nat) (i : Nat) :
    inputs.getD i 0 ≤ maxInput inputs := by
  induction inputs generalizing i with
  | nil => simp [List.getD]
  | cons a l ih =>
    cases i with
    | zero => exact le_max_left _ _
    | succ j => exact le_trans (ih j) (le_max_right _ _)

/-- Reading back a just-written slot. -/
theorem getD_set_self {α : Type} (l : List α) (i : Nat) (v d : α)
    (h : i < l.length) : (l.set i v).getD i d = v := by
  rw [List.getD_eq_getElem _ d (by simpa using h)]
  simp [List.getElem_set, h]

/-- Writing one slot leaves the others alone. -/
theorem getD_set_ne {α : Type} (l : List α) (i j : Nat) (v d : α)
    (h : i ≠ j) : (l.set i v).getD j d = l.getD j d := by
  simp [List.getD, List.get?_eq_getElem?, List.getElem?_set_ne h]

/-- All-`none` slot arrays read `none` everywhere. -/
theorem getD_replicate_none {α : Type} (n i : Nat) :
    (List.replicate n (none : Option α)).getD i none = none := by
  rcases Nat.lt_or_ge i n with h | h
  · simp [List.getD, List.get?_eq_getElem?, List.getElem?_replicate, h]
  · simp [List.getD, List.get?_eq_getElem?, List.getElem?_eq_none_iff, h]

/-- One step of the `push` loop preserves its invariant. -/
theorem pushInv_step (cfg : TransferConfig) (inputs : List Nat)
    {s t : PushState} (hinv : PushInv cfg inputs s)
    (hstep : PushStep cfg inputs s t) : PushInv cfg inputs t := by
  obtain ⟨hrlen, hslen, hni, hsz, hact, hlim, hbound, hnone, hok⟩ := hinv
  cases hstep with
  | start h1 h2 h3 =>
    refine ⟨hrlen, by simpa using hslen, by dsimp only; omega, ?_, ?_, ?_, ?_,
      ?_, hok⟩
    · dsimp only
      simp only [activeSum, List.map_cons, List.sum_cons]
      rw [hsz]
      unfold activeSum
      omega
    · intro pr hpr
      dsimp only at hpr ⊢
      rcases List.mem_cons.mp hpr with rfl | hpr2
      · exact ⟨by omega, getD_set_self _ _ _ _ (by omega)⟩
      · obtain ⟨hlt, hsz2⟩ := hact pr hpr2
        exact ⟨by omega, by rw [getD_set_ne _ _ _ _ _ (by omega)]; exact hsz2⟩
    · dsimp only
      simpa using h3
    · have hmax := getD_le_maxInput inputs s.nextIndex
      dsimp only
      rcases h2 with h2 | h2
      · omega
      · have hz : s.activeSize = 0 := by rw [hsz, h2]; rfl
        omega
    · intro i hi hri
      dsimp only at hri ⊢
      rcases hnone i hi hri with hge | ⟨tk, htk⟩
      · by_cases heq : i = s.nextIndex
        · subst heq
          exact Or.inr ⟨s.nextTaskId, List.mem_cons_self _ _⟩
        · exact Or.inl (by omega)
      · exact Or.inr ⟨tk, List.mem_cons_of_mem _ htk⟩
  | complete tid idx key pre post hsplit =>
    have hmemi : (tid, idx) ∈ s.active := by rw [hsplit]; simp
    obtain ⟨hidxlt, hsize_idx⟩ := hact (tid, idx) hmemi
    have hidxlen : idx < inputs.length := by omega
    refine ⟨by simpa using hrlen, hslen, hni, ?_, ?_, ?_, ?_, ?_, ?_⟩
    · dsimp only
      rw [hsize_idx]
      simp only [Option.getD_some]
      rw [hsz, hsplit]
      simp only [activeSum, List.map_append, List.sum_append, List.map_cons,
        List.sum_cons]
      omega
    · intro pr hpr
      dsimp only at hpr ⊢
      refine hact pr ?_
      rw [hsplit]
      rcases List.mem_append.mp hpr with h | h
      · exact List.mem_append.mpr (Or.inl h)
      · exact List.mem_append.mpr (Or.inr (List.mem_cons_of_mem _ h))
    · have hl : s.active.length = pre.length + post.length + 1 := by
        rw [hsplit]
        simp
        omega
      dsimp only
      simp only [List.length_append]
      omega
    · have hsub : s.activeSize - (s.sizes.getD idx none).getD 0
          ≤ s.activeSize := Nat.sub_le _ _
      dsimp only
      omega
    · intro i hi hri
      dsimp only at hri ⊢
      by_cases heq : i = idx
      · subst heq
        rw [getD_set_self _ _ _ _ (by omega)] at hri
        cases hri
      · rw [getD_set_ne _ _ _ _ _ (fun he => heq he.symm)] at hri
        rcases hnone i hi hri with h | ⟨tk, htk⟩
        · exact Or.inl h
        · right
          refine ⟨tk, ?_⟩
          rw [hsplit] at htk
          rcases List.mem_append.mp htk with h | h
          · exact List.mem_append.mpr (Or.inl h)
          · rcases List.mem_cons.mp h with he | h2
            · exact absurd (congrArg Prod.snd he) heq
            · exact List.mem_append.mpr (Or.inr h2)
    · intro i r hir
      dsimp only at hir
      by_cases heq : i = idx
      · subst heq
        rw [getD_set_self _ _ _ _ (by omega)] at hir
        exact ⟨key, by injection hir with h; exact h.symm⟩
      · rw [getD_set_ne _ _ _ _ _ (fun he => heq he.symm)] at hir
        exact hok i r hir

/-- One step of the `pull` loop preserves its invariant. -/
theorem pullInv_step (cfg : TransferConfig) (sizes : List Nat)
    {s t : PullState} (hinv : PullInv cfg sizes s)
    (hstep : PullStep cfg sizes s t) : PullInv cfg sizes t := by
  obtain ⟨hsz, hlim, hbound⟩ := hinv
  cases hstep with
  | start h1 h2 h3 =>
    refine ⟨?_, by dsimp only; simpa using h3, ?_⟩
    · dsimp only
      simp only [activeSum, List.map_cons, List.sum_cons]
      rw [hsz]
      unfold activeSum
      omega
    · have hmax := getD_le_maxInput sizes s.nextIndex
      dsimp only
      rcases h2 with h2 | h2
      · omega
      · have hz : s.activeSize = 0 := by rw [hsz, h2]; rfl
        omega
  | complete tid idx pre post hsplit =>
    refine ⟨?_, ?_, ?_⟩
    · dsimp only
      rw [hsz, hsplit]
      simp only [activeSum, List.map_append, List.sum_append, List.map_cons,
        List.sum_cons]
      omega
    · have hl : s.active.length = pre.length + post.length + 1 := by
        rw [hsplit]
        simp
        omega
      dsimp only
      simp only [List.length_append]
      omega
    · have hsub : s.activeSize - sizes.getD idx 0 ≤ s.activeSize :=
        Nat.sub_le _ _
      dsimp only
      omega

/-- The `push` invariant holds in every reachable state. -/
theorem pushInv_reach (cfg : TransferConfig) (inputs : List Nat)
    {s : PushState} (h : PushReach cfg inputs s) : PushInv cfg inputs s := by
  induction h with
  | init =>
    refine ⟨by simp [PushState.init], by simp [PushState.init],
      by simp [PushState.init], rfl, ?_, by simp [PushState.init],
      by simp [PushState.init], ?_, ?_⟩
    · intro pr hpr
      simp [PushState.init] at hpr
    · intro i hi hri
      exact Or.inl (Nat.zero_le i)
    · intro i r hir
      simp only [PushState.init] at hir
      rw [getD_replicate_none] at hir
      cases hir
  | step hr hs ih => exact pushInv_step cfg inputs ih hs

/-- The `pull` invariant holds in every reachable state. -/
theorem pullInv_reach (cfg : TransferConfig) (sizes : List Nat)
    {s : PullState} (h : PullReach cfg sizes s) : PullInv cfg sizes s := by
  induction h with
  | init =>
    exact ⟨rfl, by simp [PullState.init], by simp [PullState.init]⟩
  | step hr hs ih => exact pullInv_step cfg sizes ih hs

/-- C2 (amended): for every configuration and input list, at every state
the push or pull loop reaches, the number of in-flight tasks is at most
`active_tasks_limit`, and `active_size` is at most `active_size_limit`
plus the largest input size (admission only checks the limit *before*
adding a task's size, so the size may overshoot by at most the last
admitted input — even with two or more tasks in flight). -/
theorem transfer_bounds (cfg : TransferConfig)
    (pushInputs pullSizes : List Nat) :
    (∀ s : PushState, PushReach cfg pushInputs s →
        s.active.length ≤ cfg.active_tasks_limit
        ∧ s.activeSize ≤ cfg.active_size_limit + maxInput pushInputs)
    ∧ (∀ s : PullState, PullReach cfg pullSizes s →
        s.active.length ≤ cfg.active_tasks_limit
        ∧ s.activeSize ≤ cfg.active_size_limit + maxInput pullSizes) := by
  constructor
  · intro s hs
    obtain ⟨-, -, -, -, -, hlim, hbound, -, -⟩ :=
      pushInv_reach cfg pushInputs hs
    exact ⟨hlim, hbound⟩
  · intro s hs
    obtain ⟨-, hlim, hbound⟩ := pullInv_reach cfg pullSizes hs
    exact ⟨hlim, hbound⟩

/-- Counterexample to the unamended C2 claim: pushing two files of sizes
1 and 100 with `active_size_limit = 10` reaches `overLimitState`, where
two tasks are in flight and `active_size = 101 > 10`.  (The admission
guard `active_size < limit` held — `1 < 10` — when the second task was
admitted.) -/
theorem transfer_bounds_cex :
    PushReach cexConfig [1, 100] overLimitState
    ∧ 2 ≤ overLimitState.active.length
    ∧ cexConfig.active_size_limit < overLimitState.activeSize := by
  refine ⟨?_, by decide, by decide⟩
  have h0 : PushReach cexConfig [1, 100] (PushState.init 2) := PushReach.init
  have h1 := PushReach.step h0
    (PushStep.start (PushState.init 2) (by decide) (by decide) (by decide))
  have h2 := PushReach.step h1
    (PushStep.start _ (by decide) (by decide) (by decide))
  exact h2

/-- Witness for `transfer_bounds`: the bounds at the counterexample
state for push and at the initial state for pull. -/
theorem transfer_bounds_witness :
    (overLimitState.active.length ≤ cexConfig.active_tasks_limit
      ∧ overLimitState.activeSize
          ≤ cexConfig.active_size_limit + maxInput [1, 100])
    ∧ (PullState.init.active.length ≤ cexConfig.active_tasks_limit
      ∧ PullState.init.activeSize
          ≤ cexConfig.active_size_limit + maxInput [7]) := by
  constructor
  · refine (transfer_bounds cexConfig [1, 100] [7]).1 overLimitState ?_
    have h0 : PushReach cexConfig [1, 100] (PushState.init 2) := PushReach.init
    have h1 := PushReach.step h0
      (PushStep.start (PushState.init 2) (by decide) (by decide) (by decide))
    exact PushReach.step h1 (PushStep.start _ (by decide) (by decide) (by decide))
  · exact (transfer_bounds cexConfig [1, 100] [7]).2 PullState.init
      PullReach.init

/-- C10: whenever the push loop has admitted every input
(`next_index = |paths|`) and drained every in-flight task
(`active_tasks` empty) — exactly the condition under which `Mirror::push`
leaves its loop and returns `Ok(results)` — the result array has one slot
per input path and every slot holds `Some(Ok(key))`: no slot is `None`
and no `Err` is contained (an `Error` event would have made the function
return `Err` instead, and success events only ever store `Ok`). -/
theorem push_ok_results (cfg : TransferConfig) (inputs : List Nat)
    (s : PushState) (hreach : PushReach cfg inputs s)
    (hdone : inputs.length ≤ s.nextIndex) (hempty : s.active = []) :
    s.results.length = inputs.length
    ∧ ∀ r ∈ s.results, ∃ k, r = some (Except.ok k) := by
  obtain ⟨hrlen, -, -, -, -, -, -, hnone, hok⟩ :=
    pushInv_reach cfg inputs hreach
  refine ⟨hrlen, ?_⟩
  intro r hr
  obtain ⟨i, hi, hri⟩ := List.mem_iff_getElem.mp hr
  have hilen : i < inputs.length := by omega
  have hgd : s.results.getD i none = r := by
    rw [List.getD_eq_getElem _ _ hi, hri]
  rcases r with _ | x
  · exfalso
    rcases hnone i hilen hgd with h | ⟨t, ht⟩
    · omega
    · rw [hempty] at ht
      cases ht
  · obtain ⟨k, hk⟩ := hok i x hgd
    exact ⟨k, by rw [hk]⟩

/-- Witness for `push_ok_results`: after admitting and completing a
single upload of size 5, every result slot is `Some(Ok(_))`. -/
theorem push_ok_results_witness :
    pushDoneState.results.length = [5].length
    ∧ ∀ r ∈ pushDoneState.results, ∃ k, r = some (Except.ok k) := by
  have h0 : PushReach cexConfig [5] (PushState.init 1) := PushReach.init
  have h1 := PushReach.step h0
    (PushStep.start (PushState.init 1) (by decide) (by decide) (by decide))
  have h2 := PushReach.step h1
    (PushStep.complete _ 0 0 "k" [] [] (by decide))
  exact push_ok_results cexConfig [5] pushDoneState h2 (by decide) (by decide)
